import Mathlib

/- Verification of `src/string_suffix_array_lcp_search.c`: a prefix-doubling
suffix-array builder (`buildSuffixArray`, lines 94-150), Kasai's LCP
construction (`buildLCPArray`, lines 162-185), and binary-search substring
lookup (`searchPattern`, lines 193-209).

Modelling conventions.  Characters are natural numbers (the C text is read by
`scanf("%s")`, so it consists of nonzero bytes; the end of a list plays the
role of the NUL terminator).  C `int` values that can hold the `-1` sentinel
are `Int`.  `qsort` is modelled by `List.insertionSort` with the comparator's
"sorts no later than" relation: `qsort` leaves the order of comparator-equal
records unspecified, and every property proved below is invariant under
reordering comparator-equal records. -/

/-- One suffix record during sorting: the C struct `Suffix` with fields
`index`, `rank[0]`, `rank[1]` (lines 64-68). -/
structure Sfx where
  index : Nat
  rank0 : Int
  rank1 : Int
deriving DecidableEq

/-- Comparator order on rank pairs: `cmpSuffix` (lines 74-81) compares
`rank[0]` first, ties broken by `rank[1]`.  `PLe p q` says `p` sorts no later
than `q`. -/
def PLe (p q : Int × Int) : Prop :=
  p.1 < q.1 ∨ (p.1 = q.1 ∧ p.2 ≤ q.2)

instance : DecidableRel PLe := fun p q =>
  inferInstanceAs (Decidable (p.1 < q.1 ∨ (p.1 = q.1 ∧ p.2 ≤ q.2)))

/-- The rank pair currently stored in a record. -/
def pairOf (s : Sfx) : Int × Int := (s.rank0, s.rank1)

/-- The comparator `cmpSuffix` as a relation on records. -/
def SLE (a b : Sfx) : Prop := PLe (pairOf a) (pairOf b)

instance : DecidableRel SLE := fun a b => inferInstanceAs (Decidable (PLe (pairOf a) (pairOf b)))

instance : IsTotal Sfx SLE := ⟨fun a b => by simp only [SLE, PLe, pairOf]; omega⟩

instance : IsTrans Sfx SLE := ⟨fun a b c => by simp only [SLE, PLe, pairOf]; omega⟩

/-- Three-way lexicographic comparison of character lists by ordinal value; a
strict prefix is smaller.  The value is `-1`, `0` or `1`. -/
def listCmp : List Nat → List Nat → Int
  | [], [] => 0
  | [], _ :: _ => -1
  | _ :: _, [] => 1
  | a :: as, b :: bs => if a < b then -1 else if b < a then 1 else listCmp as bs

/-- Lexicographic "less than or equal" on character lists. -/
def LexLe (a b : List Nat) : Prop := listCmp a b ≤ 0

instance (a b : List Nat) : Decidable (LexLe a b) :=
  inferInstanceAs (Decidable (listCmp a b ≤ 0))

/-- Suffix order on start offsets: the suffix of `t` starting at `a` is
lexicographically no greater than the one starting at `b`. -/
def SufLe (t : List Nat) (a b : Nat) : Prop := LexLe (t.drop a) (t.drop b)

instance (t : List Nat) (a b : Nat) : Decidable (SufLe t a b) :=
  inferInstanceAs (Decidable (LexLe (t.drop a) (t.drop b)))

/-- `key t h i`: the length-`h` window of the suffix starting at `i`, i.e.
the first `min(h, N - i)` characters of `Text[i..)`. -/
def key (t : List Nat) (h i : Nat) : List Nat := (t.drop i).take h

/-- Initial rank assignment (lines 100-104): `rank[0]` is the character at
`i`, `rank[1]` the character at `i + 1`, or `-1` at the end of the text. -/
def seed (t : List Nat) : List Sfx :=
  (List.range t.length).map fun i =>
    { index := i
      rank0 := (t.getD i 0 : Int)
      rank1 := if i + 1 < t.length then (t.getD (i + 1) 0 : Int) else -1 }

/-- Re-ranking pass over the sorted record list (lines 119-130), continuing
after the first record: a record whose old `(rank[0], rank[1])` pair equals
the previous record's old pair receives the same dense rank, otherwise the
next one.  `prev` is the previous record's old pair: the C code keeps
`prev_rank` (the old `rank[0]` of the previous record) together with the
previous record's not-yet-overwritten `rank[1]`, which are exactly the two
components compared on lines 120-121. -/
def rerankGo (r : Int) (prev : Int × Int) : List Sfx → List Sfx
  | [] => []
  | s :: rest =>
    if pairOf s = prev then { s with rank0 := r } :: rerankGo r prev rest
    else { s with rank0 := r + 1 } :: rerankGo (r + 1) (pairOf s) rest

/-- The full re-ranking pass: the first record in sorted order gets dense
rank `0` (lines 113-116). -/
def rerank : List Sfx → List Sfx
  | [] => []
  | s :: rest => { s with rank0 := 0 } :: rerankGo 0 (pairOf s) rest

/-- `rank0At L j` is the new `rank[0]` of the record whose `index` is `j`:
the C code reads `suffixes[ind[j]].rank[0]` (line 136) where `ind` maps each
suffix index to its current position (lines 116, 129).  When the indices in
`L` are distinct this is the `rank[0]` of the unique record with index `j`.
The default `0` is never reached on the inputs the algorithm supplies. -/
def rank0At (L : List Sfx) (j : Nat) : Int :=
  match L.find? (fun s => s.index == j) with
  | some s => s.rank0
  | none => 0

/-- One doubling iteration for doubling length `k` (lines 112-141): re-rank
densely, recompute each `rank[1]` as the new `rank[0]` of the suffix `k / 2`
positions later (or `-1` past the end of the text), and re-sort. -/
def step (t : List Nat) (k : Nat) (L : List Sfx) : List Sfx :=
  let L1 := rerank L
  let L2 := L1.map fun s =>
    { s with rank1 := if s.index + k / 2 < t.length then rank0At L1 (s.index + k / 2) else -1 }
  List.insertionSort SLE L2

/-- The doubling loop `for (k = 4; k < 2 * n; k *= 2)` (line 112).  The
hypothesis `0 < k` records that `k` starts at `4` and only doubles; it is
needed only for termination. -/
def saLoop (t : List Nat) (k : Nat) (L : List Sfx) (hk : 0 < k) : List Sfx :=
  if h : k < 2 * t.length then saLoop t (2 * k) (step t k L) (by omega) else L
termination_by 2 * t.length - k
decreasing_by omega

/-- `buildSuffixArray` (lines 94-150): seed the ranks, sort, run the doubling
loop, then extract the suffix indices in final sorted order (lines 144-145). -/
def buildSuffixArray (t : List Nat) : List Nat :=
  (saLoop t 4 (List.insertionSort SLE (seed t)) (by omega)).map Sfx.index

/-- The record list at the head of the doubling loop after `j` completed
iterations; the loop variable at iteration `j` is `4 * 2 ^ j`.  (`headState`
iterates `step` unconditionally; the loop itself runs iteration `j` only
while the guard `4 * 2 ^ j < 2 * N` holds.) -/
def headState (t : List Nat) : Nat → List Sfx
  | 0 => List.insertionSort SLE (seed t)
  | j + 1 => step t (4 * 2 ^ j) (headState t j)

/-- Length of the longest common prefix of two character lists. -/
def lcpLen : List Nat → List Nat → Nat
  | a :: as, b :: bs => if a = b then lcpLen as bs + 1 else 0
  | _, _ => 0

/-- The inverse `rank` array of `buildLCPArray` (lines 167-168): the loop
`rank[suffixArr[p]] = p` makes `rank[i]` the sorted position of the suffix
starting at `i`; when `suffixArr` is a permutation of `[0, N)` (the stated
precondition of `buildLCPArray`) that is the position of `i` in
`suffixArr`. -/
def rankOf (sa : List Nat) (i : Nat) : Nat := sa.indexOf i

/-- The `while` loop of Kasai's algorithm (lines 177-178): starting from `k`,
extend the match of `Text[i+k..]` against `Text[j+k..]` while both positions
are in range and the characters agree. -/
def scanK (t : List Nat) (i j k : Nat) : Nat :=
  if h : i + k < t.length ∧ j + k < t.length ∧ t.getD (i + k) 0 = t.getD (j + k) 0 then
    scanK t i j (k + 1)
  else k
termination_by t.length - (i + k)
decreasing_by omega

/-- One iteration of Kasai's loop at text position `i` (lines 171-181),
acting on the state `(k, lcp)`: if the suffix at `i` is last in sorted order,
reset `k`; otherwise extend the match against the next-sorted suffix, store
the result at sorted position `rank[i]`, and keep `k - 1` (not below `0`). -/
def kasaiStep (t : List Nat) (sa : List Nat) (st : Nat × List Int) (i : Nat) : Nat × List Int :=
  if rankOf sa i = t.length - 1 then (0, st.2)
  else
    let j := sa.getD (rankOf sa i + 1) 0
    let k1 := scanK t i j st.1
    (if 0 < k1 then k1 - 1 else k1, st.2.set (rankOf sa i) (k1 : Int))

/-- `buildLCPArray` (lines 162-185).  `init` stands for the indeterminate
contents of the freshly `malloc`ed `lcp` buffer of `N` slots: the C code
never initialises it, and position `N - 1` is never assigned. -/
def buildLCPArray (t : List Nat) (sa : List Nat) (init : List Int) : List Int :=
  ((List.range t.length).foldl (kasaiStep t sa) (0, init)).2

/-- C `strncmp` on NUL-terminated strings of nonzero characters, comparing at
most `m` characters; the end of a list plays the role of the terminator.
Only the sign of the C result is ever used, so the value is normalised to
`-1`, `0`, `1`. -/
def strncmp : List Nat → List Nat → Nat → Int
  | _, _, 0 => 0
  | [], [], _ + 1 => 0
  | [], _ :: _, _ + 1 => -1
  | _ :: _, [], _ + 1 => 1
  | a :: as, b :: bs, m + 1 =>
    if a < b then -1 else if b < a then 1 else strncmp as bs m

/-- The binary-search loop of `searchPattern` (lines 198-207).  `high1`
stands for `high + 1`, so the C condition `low <= high` reads `low < high1`
and the update `high = mid - 1` reads `high1 = mid`; this keeps both bounds
in `Nat`.  In C, `high` only ever reaches `-1`, which is `high1 = 0`, and
`mid = (low + high) / 2` is computed from nonnegative values.  The local C
variables `mid` and `res` are inlined: `mid` is `(low + (high1 - 1)) / 2`
and `res` the `strncmp` of the pattern against the suffix at `SA[mid]`. -/
def searchLoop (t sa pat : List Nat) (low high1 : Nat) : Int :=
  if low < high1 then
    if strncmp pat (t.drop (sa.getD ((low + (high1 - 1)) / 2) 0)) pat.length = 0 then
      (sa.getD ((low + (high1 - 1)) / 2) 0 : Int)
    else if strncmp pat (t.drop (sa.getD ((low + (high1 - 1)) / 2) 0)) pat.length < 0 then
      searchLoop t sa pat low ((low + (high1 - 1)) / 2)
    else searchLoop t sa pat ((low + (high1 - 1)) / 2 + 1) high1
  else -1
termination_by high1 - low
decreasing_by
  · omega
  · omega

/-- `searchPattern` (lines 193-209): binary search over the suffix array;
the C caller passes `n = strlen(txt)`, so the initial range is `low = 0`,
`high = n - 1`. -/
def searchPattern (t sa pat : List Nat) : Int :=
  searchLoop t sa pat 0 t.length

/-- A valid suffix array for `t` (spec section 3): a permutation of `[0, N)`
listing the suffix start offsets in lexicographically nondecreasing order. -/
def Valid (t : List Nat) (sa : List Nat) : Prop :=
  sa.Perm (List.range t.length) ∧ List.Chain' (SufLe t) sa

instance (t sa : List Nat) : Decidable (Valid t sa) :=
  inferInstanceAs (Decidable (sa.Perm (List.range t.length) ∧ List.Chain' (SufLe t) sa))

/-- Executable sortedness check for the `Valid` precondition: adjacent
entries of `sa` start lexicographically nondecreasing suffixes of `t`. -/
def chainOk (t : List Nat) : List Nat → Bool
  | a :: b :: rest => decide (SufLe t a b) && chainOk t (b :: rest)
  | _ => true

/-- The pattern occurs in the text: it matches at one of the `N` possible
start offsets (spec section 8 checks occurrence by "scanning all N possible
start offsets"). -/
def OccursIn (t pat : List Nat) : Prop :=
  ∃ o, o < t.length ∧ (t.drop o).take pat.length = pat

instance (t pat : List Nat) : Decidable (OccursIn t pat) := by
  unfold OccursIn
  exact decidable_of_iff (∃ o < t.length, (t.drop o).take pat.length = pat) (by simp)

/-- Number of value changes along a list of rank pairs, starting from `prev`:
each element differing from its predecessor counts one.  The re-ranking pass
assigns to each record the number of changes up to it. -/
def nchg (prev : Int × Int) : List (Int × Int) → Nat
  | [] => 0
  | p :: ps => (if p = prev then 0 else 1) + nchg p ps

/-- Position `q` of a pair list, as ranked by the full re-ranking pass:
position `0` gets `0`, later positions count the pair changes up to them. -/
def nchgAt : List (Int × Int) → Nat → Nat
  | [], _ => 0
  | _ :: _, 0 => 0
  | p :: ps, q + 1 => nchg p (ps.take (q + 1))

/-- Dense-rank encoding: on records of `L`, comparator order of the stored
rank pairs agrees with lexicographic order of the length-`h` suffix
windows. -/
def PairEnc (t : List Nat) (h : Nat) (L : List Sfx) : Prop :=
  ∀ s ∈ L, ∀ s' ∈ L, (SLE s s' ↔ LexLe (key t h s.index) (key t h s'.index))

/-- Invariant at the head of the doubling loop, for window length `h`
(`h = k / 2` when the loop variable is `k`): the records hold each suffix
index exactly once, they are sorted by the comparator, and their rank pairs
encode the order of the length-`h` suffix windows. -/
def LoopInv (t : List Nat) (h : Nat) (L : List Sfx) : Prop :=
  (L.map Sfx.index).Perm (List.range t.length) ∧ List.Pairwise SLE L ∧ PairEnc t h L

/-! ### Lexicographic comparison: basic facts -/

theorem listCmp_self (a : List Nat) : listCmp a a = 0 := by
  induction a with
  | nil => rfl
  | cons x as ih => simp [listCmp, ih]

theorem listCmp_eq_zero_iff (a b : List Nat) : listCmp a b = 0 ↔ a = b := by
  induction a generalizing b with
  | nil => cases b <;> simp [listCmp]
  | cons x as ih =>
    cases b with
    | nil => simp [listCmp]
    | cons y bs =>
      simp only [listCmp]
      split_ifs with h1 h2
      · exact iff_of_false (by decide) (fun he => by injection he with hx _; omega)
      · exact iff_of_false (by decide) (fun he => by injection he with hx _; omega)
      · have hxy : x = y := by omega
        subst hxy
        rw [ih]
        simp

theorem listCmp_swap (a b : List Nat) : listCmp b a = -listCmp a b := by
  induction a generalizing b with
  | nil => cases b <;> simp [listCmp]
  | cons x as ih =>
    cases b with
    | nil => simp [listCmp]
    | cons y bs =>
      simp only [listCmp]
      split_ifs <;> first | exact ih bs | omega

theorem listCmp_trans_le (a b c : List Nat) :
    listCmp a b ≤ 0 → listCmp b c ≤ 0 → listCmp a c ≤ 0 := by
  induction a generalizing b c with
  | nil =>
    intro _ _
    cases c <;> simp [listCmp]
  | cons x as ih =>
    cases b with
    | nil => intro h1; simp [listCmp] at h1
    | cons y bs =>
      cases c with
      | nil => intro _ h2; simp [listCmp] at h2
      | cons z cs =>
        intro hab hbc
        simp only [listCmp] at hab hbc ⊢
        split_ifs at hab hbc ⊢ <;> first | omega | exact ih bs cs hab hbc

theorem lexLe_refl (a : List Nat) : LexLe a a := by
  simp [LexLe, listCmp_self]

theorem lexLe_trans {a b c : List Nat} (h1 : LexLe a b) (h2 : LexLe b c) : LexLe a c :=
  listCmp_trans_le a b c h1 h2

theorem lexLe_antisymm {a b : List Nat} (h1 : LexLe a b) (h2 : LexLe b a) : a = b := by
  unfold LexLe at h1 h2
  rw [listCmp_swap] at h2
  rw [← listCmp_eq_zero_iff]
  omega

theorem lexLe_total (a b : List Nat) : LexLe a b ∨ LexLe b a := by
  unfold LexLe
  rw [listCmp_swap]
  omega

theorem not_lexLe_iff (a b : List Nat) : ¬LexLe a b ↔ listCmp b a < 0 := by
  unfold LexLe
  rw [listCmp_swap]
  omega

theorem lexLe_nil (a : List Nat) : LexLe [] a := by
  cases a <;> simp [LexLe, listCmp]

theorem listCmp_cons_same (x : Nat) (as bs : List Nat) :
    listCmp (x :: as) (x :: bs) = listCmp as bs := by
  simp [listCmp]

theorem listCmp_append_left (a b d : List Nat) :
    listCmp (a ++ b) (a ++ d) = listCmp b d := by
  induction a with
  | nil => rfl
  | cons x as ih => simpa [listCmp_cons_same] using ih

theorem listCmp_append_lt (a c b d : List Nat) (h : listCmp a c < 0)
    (hp : a.length < c.length → b = []) : listCmp (a ++ b) (c ++ d) < 0 := by
  induction a generalizing c with
  | nil =>
    cases c with
    | nil => simp [listCmp] at h
    | cons z cs =>
      have hb : b = [] := hp (by simp)
      subst hb
      simp [listCmp]
  | cons x as ih =>
    cases c with
    | nil => simp [listCmp] at h
    | cons z cs =>
      simp only [listCmp] at h
      simp only [List.cons_append, listCmp]
      split_ifs at h ⊢ with h1 h2
      · omega
      · omega
      · exact ih cs h (fun hl => hp (by simp; omega))

theorem listCmp_nonempty_nil (x : Nat) (l : List Nat) : listCmp (x :: l) [] = 1 := rfl

/-! ### Suffix windows -/

theorem key_append (t : List Nat) (h i : Nat) :
    key t (h + h) i = key t h i ++ key t h (i + h) := by
  unfold key
  rw [List.take_add, List.drop_drop]

theorem key_eq_drop (t : List Nat) (h i : Nat) (hle : t.length - i ≤ h) :
    key t h i = t.drop i := by
  unfold key
  apply List.take_of_length_le
  rw [List.length_drop]
  exact hle

theorem key_length (t : List Nat) (h i : Nat) :
    (key t h i).length = min h (t.length - i) := by
  simp [key]

theorem key_ne_nil (t : List Nat) (h i : Nat) (hh : 1 ≤ h) (hi : i < t.length) :
    key t h i ≠ [] := by
  have : (key t h i).length ≠ 0 := by
    rw [key_length]
    omega
  intro he
  rw [he] at this
  simp at this

theorem key_one (t : List Nat) (i : Nat) (hi : i < t.length) :
    key t 1 i = [t.getD i 0] := by
  unfold key
  rw [List.getD_eq_getElem _ _ hi, List.drop_eq_getElem_cons hi, List.take_succ_cons,
    List.take_zero]

theorem key_nil_of_le (t : List Nat) (h i : Nat) (hle : t.length ≤ i) : key t h i = [] := by
  simp [key, List.drop_eq_nil_of_le hle]

/-- Composition of rank encodings: if `R0` orders suffix indices exactly as
their length-`h` windows, then the rank pairs `(R0 i, R0 (i + h))` (with `-1`
past the end of the text) order them exactly as their length-`2h` windows.
This is the heart of prefix doubling; it applies both to the seed ranks
(`h = 1`) and to every doubling iteration (`h = k / 2`). -/
theorem pairEnc_double (t : List Nat) (h : Nat) (hh : 1 ≤ h) (R0 : Nat → Int)
    (hR0 : ∀ i j, i < t.length → j < t.length →
      (R0 i ≤ R0 j ↔ LexLe (key t h i) (key t h j)))
    (hpos : ∀ i, i < t.length → 0 ≤ R0 i)
    (i j : Nat) (hi : i < t.length) (hj : j < t.length) :
    PLe (R0 i, if i + h < t.length then R0 (i + h) else -1)
        (R0 j, if j + h < t.length then R0 (j + h) else -1) ↔
      LexLe (key t (2 * h) i) (key t (2 * h) j) := by
  have hR0eq : ∀ i' j', i' < t.length → j' < t.length →
      (R0 i' = R0 j' ↔ key t h i' = key t h j') := by
    intro i' j' hi' hj'
    constructor
    · intro he
      exact lexLe_antisymm ((hR0 i' j' hi' hj').1 (le_of_eq he))
        ((hR0 j' i' hj' hi').1 (le_of_eq he.symm))
    · intro hk
      have h1 := (hR0 i' j' hi' hj').2 (hk ▸ lexLe_refl _)
      have h2 := (hR0 j' i' hj' hi').2 (hk ▸ lexLe_refl _)
      omega
  rw [two_mul, key_append, key_append]
  have hblen : (key t h i).length < (key t h j).length → key t h (i + h) = [] := by
    intro hlen
    rw [key_length, key_length] at hlen
    exact key_nil_of_le t h (i + h) (by omega)
  have hdlen : (key t h j).length < (key t h i).length → key t h (j + h) = [] := by
    intro hlen
    rw [key_length, key_length] at hlen
    exact key_nil_of_le t h (j + h) (by omega)
  rcases lt_trichotomy (R0 i) (R0 j) with hlt | heq | hgt
  · apply iff_of_true (Or.inl hlt)
    have hne : ¬LexLe (key t h j) (key t h i) := by
      intro hca
      have := (hR0 j i hj hi).2 hca
      omega
    have hstrict : listCmp (key t h i) (key t h j) < 0 := (not_lexLe_iff _ _).1 hne
    have := listCmp_append_lt (key t h i) (key t h j) (key t h (i + h)) (key t h (j + h))
      hstrict hblen
    show listCmp _ _ ≤ 0
    omega
  · have hkeq : key t h i = key t h j := (hR0eq i j hi hj).1 heq
    have lhs_iff : PLe (R0 i, if i + h < t.length then R0 (i + h) else -1)
        (R0 j, if j + h < t.length then R0 (j + h) else -1) ↔
        ((if i + h < t.length then R0 (i + h) else -1) ≤
          (if j + h < t.length then R0 (j + h) else -1)) := by
      constructor
      · rintro (hl | ⟨-, hr⟩)
        · omega
        · exact hr
      · intro hr
        exact Or.inr ⟨heq, hr⟩
    have rhs_iff : LexLe (key t h i ++ key t h (i + h)) (key t h j ++ key t h (j + h)) ↔
        LexLe (key t h (i + h)) (key t h (j + h)) := by
      rw [hkeq]
      unfold LexLe
      rw [listCmp_append_left]
    rw [lhs_iff, rhs_iff]
    by_cases hib : i + h < t.length <;> by_cases hjb : j + h < t.length
    · simp only [hib, hjb, if_true]
      exact hR0 (i + h) (j + h) hib hjb
    · simp only [hib, hjb, if_true, if_false]
      apply iff_of_false
      · have := hpos (i + h) hib
        omega
      · rw [key_nil_of_le t h (j + h) (by omega)]
        obtain ⟨x, l, hxl⟩ : ∃ x l, key t h (i + h) = x :: l := by
          rcases hk : key t h (i + h) with - | ⟨x, l⟩
          · exact absurd hk (key_ne_nil t h (i + h) hh hib)
          · exact ⟨x, l, rfl⟩
        rw [hxl]
        intro hc
        have : listCmp (x :: l) [] = 1 := rfl
        unfold LexLe at hc
        omega
    · simp only [hib, hjb, if_true, if_false]
      apply iff_of_true
      · have := hpos (j + h) hjb
        omega
      · rw [key_nil_of_le t h (i + h) (by omega)]
        exact lexLe_nil _
    · simp only [hib, hjb, if_false]
      apply iff_of_true le_rfl
      rw [key_nil_of_le t h (i + h) (by omega), key_nil_of_le t h (j + h) (by omega)]
      exact lexLe_refl _
  · apply iff_of_false
    · rintro (hl | ⟨he, -⟩) <;> omega
    · have hne : ¬LexLe (key t h i) (key t h j) := by
        intro hac
        have := (hR0 i j hi hj).2 hac
        omega
      have hstrict : listCmp (key t h j) (key t h i) < 0 := (not_lexLe_iff _ _).1 hne
      have := listCmp_append_lt (key t h j) (key t h i) (key t h (j + h)) (key t h (i + h))
        hstrict hdlen
      rw [not_lexLe_iff]
      exact this

/-! ### The re-ranking pass -/

instance : IsTrans (Int × Int) PLe := ⟨fun a b c => by simp only [PLe]; omega⟩

theorem pLe_refl (p : Int × Int) : PLe p p := by simp [PLe]

theorem pLe_antisymm {u v : Int × Int} (h1 : PLe u v) (h2 : PLe v u) : u = v := by
  cases u with
  | mk a b =>
    cases v with
    | mk c d =>
      simp only [PLe] at h1 h2
      simp only [Prod.mk.injEq]
      omega

theorem nchg_zero_iff (prev : Int × Int) (l : List (Int × Int)) :
    nchg prev l = 0 ↔ ∀ x ∈ l, x = prev := by
  induction l generalizing prev with
  | nil => simp [nchg]
  | cons p ps ih =>
    simp only [nchg]
    by_cases hp : p = prev
    · subst hp
      rw [if_pos rfl]
      rw [Nat.zero_add, ih p]
      constructor
      · intro hall x hx
        rcases List.mem_cons.1 hx with rfl | hx'
        · rfl
        · exact hall x hx'
      · intro hall x hx
        exact hall x (List.mem_cons_of_mem p hx)
    · rw [if_neg hp]
      apply iff_of_false
      · omega
      · intro hall
        exact hp (hall p (List.mem_cons_self p ps))

theorem nchg_take_mono (l : List (Int × Int)) (prev : Int × Int) (m m' : Nat) (hm : m ≤ m') :
    nchg prev (l.take m) ≤ nchg prev (l.take m') := by
  induction l generalizing prev m m' with
  | nil => simp
  | cons p ps ih =>
    cases m with
    | zero => simp [nchg]
    | succ m0 =>
      cases m' with
      | zero => omega
      | succ m1 =>
        simp only [List.take_succ_cons, nchg]
        have := ih p m0 m1 (by omega)
        omega

theorem nchg_take_zero_iff (p : Int × Int) (ps : List (Int × Int))
    (hch : List.Chain' PLe (p :: ps)) (j : Nat) (hj : j < ps.length) :
    nchg p (ps.take (j + 1)) = 0 ↔ ps[j] = p := by
  have hpw := List.pairwise_iff_getElem.1 (List.chain'_iff_pairwise.1 hch)
  rw [nchg_zero_iff]
  constructor
  · intro hall
    apply hall
    rw [List.mem_take_iff_getElem]
    exact ⟨j, lt_min (by omega) hj, rfl⟩
  · intro hjp x hx
    rw [List.mem_take_iff_getElem] at hx
    obtain ⟨v, hv, rfl⟩ := hx
    have hv' : v < ps.length := lt_of_lt_of_le hv inf_le_right
    have hvj : v ≤ j := by
      have := lt_of_lt_of_le hv inf_le_left
      omega
    have h1 : PLe p ps[v] := by
      have := hpw 0 (v + 1) (by simp) (by simp only [List.length_cons]; omega) (by omega)
      simpa using this
    have h2 : PLe ps[v] p := by
      rcases Nat.lt_or_ge v j with hlt | hge
      · have := hpw (v + 1) (j + 1) (by simp only [List.length_cons]; omega)
          (by simp only [List.length_cons]; omega) (by omega)
        simp only [List.getElem_cons_succ] at this
        rw [← hjp]
        exact this
      · have hvj' : v = j := by omega
        subst hvj'
        rw [← hjp]
        exact pLe_refl _
    exact pLe_antisymm h2 h1

theorem nchg_take_eq_iff (ps : List (Int × Int)) (prev : Int × Int) (q q' : Nat)
    (hqq : q ≤ q') (hq' : q' < ps.length) (hch : List.Chain' PLe (prev :: ps)) :
    (nchg prev (ps.take (q + 1)) = nchg prev (ps.take (q' + 1)) ↔ ps[q] = ps[q']) := by
  induction ps generalizing prev q q' with
  | nil => simp at hq'
  | cons p ps' ih =>
    have hch' : List.Chain' PLe (p :: ps') := hch.tail
    cases q with
    | zero =>
      cases q' with
      | zero => simp
      | succ j =>
        have hj : j < ps'.length := by
          simp only [List.length_cons] at hq'
          omega
        simp only [List.take_succ_cons, List.take_zero, nchg, Nat.add_zero,
          List.getElem_cons_zero, List.getElem_cons_succ]
        have hz := nchg_take_zero_iff p ps' hch' j hj
        constructor
        · intro he
          exact (hz.1 (by omega)).symm
        · intro he
          have := hz.2 he.symm
          omega
    | succ v =>
      cases q' with
      | zero => omega
      | succ j =>
        have hj : j < ps'.length := by
          simp only [List.length_cons] at hq'
          omega
        simp only [List.take_succ_cons, nchg, List.getElem_cons_succ]
        have hiff := ih p v j (by omega) hj hch'
        constructor
        · intro he
          exact hiff.1 (by omega)
        · intro he
          have := hiff.2 he
          omega

theorem nchgAt_mono (ps : List (Int × Int)) (p q : Nat) (hpq : p ≤ q) :
    nchgAt ps p ≤ nchgAt ps q := by
  cases ps with
  | nil => simp [nchgAt]
  | cons x ps' =>
    cases p with
    | zero =>
      cases q with
      | zero => simp
      | succ j => simp [nchgAt]
    | succ v =>
      cases q with
      | zero => omega
      | succ j =>
        simpa [nchgAt] using nchg_take_mono ps' x (v + 1) (j + 1) (by omega)

theorem nchgAt_eq_iff (ps : List (Int × Int)) (hch : List.Chain' PLe ps) (p q : Nat)
    (hpq : p ≤ q) (hq : q < ps.length) : (nchgAt ps p = nchgAt ps q ↔ ps[p] = ps[q]) := by
  cases ps with
  | nil => simp at hq
  | cons x ps' =>
    cases p with
    | zero =>
      cases q with
      | zero => simp
      | succ j =>
        have hj : j < ps'.length := by
          simp only [List.length_cons] at hq
          omega
        simp only [nchgAt, List.getElem_cons_zero, List.getElem_cons_succ]
        have hz := nchg_take_zero_iff x ps' hch j hj
        exact ⟨fun he => (hz.1 he.symm).symm, fun he => by rw [hz.2 he.symm]⟩
    | succ v =>
      cases q with
      | zero => omega
      | succ j =>
        have hj : j < ps'.length := by
          simp only [List.length_cons] at hq
          omega
        simp only [nchgAt, List.getElem_cons_succ]
        exact nchg_take_eq_iff ps' x v j (by omega) hj hch

theorem rerankGo_length (r : Int) (prev : Int × Int) (rest : List Sfx) :
    (rerankGo r prev rest).length = rest.length := by
  induction rest generalizing r prev with
  | nil => rfl
  | cons s rest' ih =>
    simp only [rerankGo]
    split_ifs <;> simp [ih]

theorem rerank_length (L : List Sfx) : (rerank L).length = L.length := by
  cases L with
  | nil => rfl
  | cons s rest => simp [rerank, rerankGo_length]

theorem rerankGo_map_index (r : Int) (prev : Int × Int) (rest : List Sfx) :
    (rerankGo r prev rest).map Sfx.index = rest.map Sfx.index := by
  induction rest generalizing r prev with
  | nil => rfl
  | cons s rest' ih =>
    simp only [rerankGo]
    split_ifs <;> simp [ih]

theorem rerank_map_index (L : List Sfx) : (rerank L).map Sfx.index = L.map Sfx.index := by
  cases L with
  | nil => rfl
  | cons s rest => simp [rerank, rerankGo_map_index]

theorem rerankGo_rank0 (r : Int) (prev : Int × Int) (rest : List Sfx) (q : Nat)
    (hq : q < rest.length) :
    ((rerankGo r prev rest)[q]?).map Sfx.rank0 =
      some (r + (nchg prev ((rest.map pairOf).take (q + 1)) : Int)) := by
  induction rest generalizing r prev q with
  | nil => simp at hq
  | cons s rest' ih =>
    simp only [rerankGo]
    by_cases hps : pairOf s = prev
    · rw [if_pos hps]
      cases q with
      | zero => simp [nchg, hps]
      | succ v =>
        simp only [List.getElem?_cons_succ, List.map_cons, List.take_succ_cons, nchg, hps]
        rw [ih r prev v (by simp only [List.length_cons] at hq; omega)]
        simp
    · rw [if_neg hps]
      cases q with
      | zero => simp [nchg, hps]
      | succ v =>
        simp only [List.getElem?_cons_succ, List.map_cons, List.take_succ_cons, nchg]
        rw [ih (r + 1) (pairOf s) v (by simp only [List.length_cons] at hq; omega),
          if_neg hps]
        congr 1
        push_cast
        ring

theorem rerank_rank0 (L : List Sfx) (q : Nat) (hq : q < L.length) :
    ((rerank L)[q]?).map Sfx.rank0 = some ((nchgAt (L.map pairOf) q : Int)) := by
  cases L with
  | nil => simp at hq
  | cons s rest =>
    cases q with
    | zero => simp [rerank, nchgAt]
    | succ v =>
      simp only [rerank, List.getElem?_cons_succ, nchgAt, List.map_cons]
      rw [rerankGo_rank0 0 (pairOf s) rest v (by simp only [List.length_cons] at hq; omega)]
      simp

theorem rerank_mem_spec (L : List Sfx) (a : Sfx) (ha : a ∈ rerank L) :
    ∃ q, ∃ hq : q < L.length,
      a.rank0 = (nchgAt (L.map pairOf) q : Int) ∧ a.index = L[q].index := by
  obtain ⟨q, hq, hget⟩ := List.mem_iff_getElem.1 ha
  have hqL : q < L.length := by
    rw [rerank_length] at hq
    exact hq
  refine ⟨q, hqL, ?_, ?_⟩
  · have h1 := rerank_rank0 L q hqL
    rw [List.getElem?_eq_getElem hq, hget] at h1
    simpa using h1
  · have h2 : ((rerank L)[q]?).map Sfx.index = (L[q]?).map Sfx.index := by
      rw [← List.getElem?_map, ← List.getElem?_map, rerank_map_index]
    rw [List.getElem?_eq_getElem hq, List.getElem?_eq_getElem hqL, hget] at h2
    simpa using h2

/-- Effect of the re-ranking pass on a sorted, order-encoding record list:
the new `rank[0]` values are nonnegative dense ranks whose order (and
equality) coincides with the lexicographic order (and equality) of the
length-`h` suffix windows. -/
theorem rerank_enc (t : List Nat) (h : Nat) (L : List Sfx)
    (hsort : List.Pairwise SLE L) (henc : PairEnc t h L)
    (a : Sfx) (ha : a ∈ rerank L) (b : Sfx) (hb : b ∈ rerank L) :
    0 ≤ a.rank0 ∧
    (a.rank0 ≤ b.rank0 ↔ LexLe (key t h a.index) (key t h b.index)) ∧
    (a.rank0 = b.rank0 ↔ key t h a.index = key t h b.index) := by
  obtain ⟨p, hpL, har, hai⟩ := rerank_mem_spec L a ha
  obtain ⟨q, hqL, hbr, hbi⟩ := rerank_mem_spec L b hb
  have hch : List.Chain' PLe (L.map pairOf) := by
    rw [List.chain'_iff_pairwise, List.pairwise_map]
    exact hsort
  have hpw := List.pairwise_iff_getElem.1 hsort
  have hkey_le : ∀ p' q' (hp' : p' < L.length) (hq' : q' < L.length), p' ≤ q' →
      LexLe (key t h (L[p']).index) (key t h (L[q']).index) := by
    intro p' q' hp' hq' hpq
    rcases Nat.lt_or_ge p' q' with hlt | hge
    · exact (henc _ (List.getElem_mem hp') _ (List.getElem_mem hq')).1 (hpw p' q' hp' hq' hlt)
    · have : p' = q' := by omega
      subst this
      exact lexLe_refl _
  have hpair_key : ∀ p' q' (hp' : p' < L.length) (hq' : q' < L.length),
      (pairOf (L[p']) = pairOf (L[q']) ↔
        key t h (L[p']).index = key t h (L[q']).index) := by
    intro p' q' hp' hq'
    constructor
    · intro hpe
      apply lexLe_antisymm
      · refine (henc _ (List.getElem_mem hp') _ (List.getElem_mem hq')).1 ?_
        show PLe _ _
        rw [hpe]
        exact pLe_refl _
      · refine (henc _ (List.getElem_mem hq') _ (List.getElem_mem hp')).1 ?_
        show PLe _ _
        rw [hpe]
        exact pLe_refl _
    · intro hke
      have h1 : SLE (L[p']) (L[q']) :=
        (henc _ (List.getElem_mem hp') _ (List.getElem_mem hq')).2
          (by rw [hke]; exact lexLe_refl _)
      have h2 : SLE (L[q']) (L[p']) :=
        (henc _ (List.getElem_mem hq') _ (List.getElem_mem hp')).2
          (by rw [hke]; exact lexLe_refl _)
      exact pLe_antisymm h1 h2
  have hmain_eq : ∀ p' q' (hp' : p' < L.length) (hq' : q' < L.length), p' ≤ q' →
      ((nchgAt (L.map pairOf) p' : Int) = nchgAt (L.map pairOf) q' ↔
        key t h (L[p']).index = key t h (L[q']).index) := by
    intro p' q' hp' hq' hpq
    rw [Nat.cast_inj]
    rw [nchgAt_eq_iff (L.map pairOf) hch p' q' hpq (by simpa using hq')]
    rw [List.getElem_map, List.getElem_map]
    exact hpair_key p' q' hp' hq'
  refine ⟨?_, ?_, ?_⟩
  · rw [har]
    exact Int.natCast_nonneg _
  · rw [har, hbr, hai, hbi]
    rcases le_or_lt p q with hpq | hqp
    · apply iff_of_true
      · exact_mod_cast nchgAt_mono _ p q hpq
      · exact hkey_le p q hpL hqL hpq
    · constructor
      · intro hle
        have hmono := nchgAt_mono (L.map pairOf) q p (by omega)
        have heq : (nchgAt (L.map pairOf) q : Int) = nchgAt (L.map pairOf) p := by
          have : nchgAt (L.map pairOf) p ≤ nchgAt (L.map pairOf) q := by exact_mod_cast hle
          have : nchgAt (L.map pairOf) p = nchgAt (L.map pairOf) q := by omega
          exact_mod_cast this.symm
        have hkk := (hmain_eq q p hqL hpL (by omega)).1 heq
        rw [hkk]
        exact lexLe_refl _
      · intro hlex
        have hlex2 := hkey_le q p hqL hpL (by omega)
        have hkk := lexLe_antisymm hlex hlex2
        have heq := (hmain_eq q p hqL hpL (by omega)).2 hkk.symm
        rw [heq]
  · rw [har, hbr, hai, hbi]
    rcases le_or_lt p q with hpq | hqp
    · exact hmain_eq p q hpL hqL hpq
    · constructor
      · intro he
        exact ((hmain_eq q p hqL hpL (by omega)).1 he.symm).symm
      · intro hk
        exact ((hmain_eq q p hqL hpL (by omega)).2 hk.symm).symm

theorem rank0At_eq (L : List Sfx) (hnd : (L.map Sfx.index).Nodup) (w : Sfx) (hw : w ∈ L) :
    rank0At L w.index = w.rank0 := by
  unfold rank0At
  cases hfind : L.find? (fun s => s.index == w.index) with
  | none =>
    exfalso
    have := List.find?_eq_none.1 hfind w hw
    simp at this
  | some s =>
    have hs1 : s.index = w.index := by
      have := List.find?_some hfind
      simpa using this
    have hs2 : s ∈ L := List.mem_of_find?_eq_some hfind
    have : s = w := List.inj_on_of_nodup_map hnd hs2 hw hs1
    rw [this]

/-- One doubling iteration advances the loop invariant from window length
`k / 2` to window length `k`. -/
theorem step_inv (t : List Nat) (k : Nat) (L : List Sfx) (hk2 : 2 ≤ k) (hke : k % 2 = 0)
    (hinv : LoopInv t (k / 2) L) : LoopInv t k (step t k L) := by
  obtain ⟨hperm, hsort, henc⟩ := hinv
  have hh : 1 ≤ k / 2 := by omega
  have hkk : 2 * (k / 2) = k := by omega
  set L1 := rerank L with hL1
  set f : Sfx → Sfx := fun s =>
    { s with rank1 := if s.index + k / 2 < t.length then rank0At L1 (s.index + k / 2) else -1 }
    with hf
  set L2 := L1.map f with hL2
  have hstep : step t k L = List.insertionSort SLE L2 := rfl
  have hidx1 : L1.map Sfx.index = L.map Sfx.index := rerank_map_index L
  have hperm1 : (L1.map Sfx.index).Perm (List.range t.length) := by
    rw [hidx1]
    exact hperm
  have hnd1 : (L1.map Sfx.index).Nodup := hperm1.nodup_iff.2 (List.nodup_range _)
  have hmemn : ∀ w ∈ L1, w.index < t.length := by
    intro w hw
    have h1 : w.index ∈ L1.map Sfx.index := List.mem_map_of_mem _ hw
    have := hperm1.mem_iff.1 h1
    simpa using this
  have hex : ∀ i, i < t.length → ∃ w ∈ L1, w.index = i := by
    intro i hi
    have : i ∈ L1.map Sfx.index := hperm1.mem_iff.2 (by simpa using hi)
    simpa using List.mem_map.1 this
  have henc1 := fun a ha b hb => rerank_enc t (k / 2) L hsort henc a ha b hb
  have hR0 : ∀ i j, i < t.length → j < t.length →
      (rank0At L1 i ≤ rank0At L1 j ↔ LexLe (key t (k / 2) i) (key t (k / 2) j)) := by
    intro i j hi hj
    obtain ⟨w, hw, hwi⟩ := hex i hi
    obtain ⟨w', hw', hwj⟩ := hex j hj
    rw [← hwi, ← hwj, rank0At_eq L1 hnd1 w hw, rank0At_eq L1 hnd1 w' hw']
    exact (henc1 w hw w' hw').2.1
  have hpos : ∀ i, i < t.length → 0 ≤ rank0At L1 i := by
    intro i hi
    obtain ⟨w, hw, hwi⟩ := hex i hi
    rw [← hwi, rank0At_eq L1 hnd1 w hw]
    exact (henc1 w hw w hw).1
  have hpair2 : ∀ s2 ∈ L2, s2.index < t.length ∧ pairOf s2 =
      (rank0At L1 s2.index,
        if s2.index + k / 2 < t.length then rank0At L1 (s2.index + k / 2) else -1) := by
    intro s2 hs2
    obtain ⟨s1, hs1, rfl⟩ := List.mem_map.1 hs2
    have hidx : (f s1).index = s1.index := rfl
    refine ⟨by rw [hidx]; exact hmemn s1 hs1, ?_⟩
    have hr : rank0At L1 s1.index = s1.rank0 := rank0At_eq L1 hnd1 s1 hs1
    simp [hf, pairOf, hr]
  have henc2 : PairEnc t k L2 := by
    intro s2 hs2 s2' hs2'
    obtain ⟨hi2, hp2⟩ := hpair2 s2 hs2
    obtain ⟨hi2', hp2'⟩ := hpair2 s2' hs2'
    have hdd := pairEnc_double t (k / 2) hh (rank0At L1) hR0 hpos s2.index s2'.index hi2 hi2'
    rw [hkk] at hdd
    unfold SLE
    rw [hp2, hp2']
    exact hdd
  refine ⟨?_, ?_, ?_⟩
  · rw [hstep]
    refine ((List.perm_insertionSort SLE L2).map Sfx.index).trans ?_
    have hmapeq : L2.map Sfx.index = L1.map Sfx.index := by
      rw [hL2, List.map_map]
      congr 1
    rw [hmapeq, hidx1]
    exact hperm
  · rw [hstep]
    exact List.sorted_insertionSort SLE L2
  · rw [hstep]
    intro s hs s' hs'
    exact henc2 s ((List.perm_insertionSort SLE L2).mem_iff.1 hs)
      s' ((List.perm_insertionSort SLE L2).mem_iff.1 hs')

theorem lexLe_singleton (x y : Nat) : LexLe [x] [y] ↔ x ≤ y := by
  unfold LexLe
  simp only [listCmp]
  split_ifs with h1 h2 <;> constructor <;> intro <;> omega

theorem seed_index (t : List Nat) : (seed t).map Sfx.index = List.range t.length := by
  simp [seed, List.map_map, Function.comp_def]

/-- After the seed assignment and initial sort, the loop invariant holds for
window length `2`: the seed pairs are the first two characters (with the `-1`
sentinel), which encode the order of length-2 windows. -/
theorem seed_inv (t : List Nat) : LoopInv t 2 (List.insertionSort SLE (seed t)) := by
  have hperm0 : ((seed t).map Sfx.index).Perm (List.range t.length) := by
    rw [seed_index]
  refine ⟨((List.perm_insertionSort SLE (seed t)).map Sfx.index).trans hperm0,
    List.sorted_insertionSort SLE (seed t), ?_⟩
  have hR0 : ∀ i j, i < t.length → j < t.length →
      ((t.getD i 0 : Int) ≤ (t.getD j 0 : Int) ↔ LexLe (key t 1 i) (key t 1 j)) := by
    intro i j hi hj
    rw [key_one t i hi, key_one t j hj, lexLe_singleton]
    exact Nat.cast_le
  intro s hs s' hs'
  have hs0 : s ∈ seed t := (List.perm_insertionSort SLE (seed t)).mem_iff.1 hs
  have hs0' : s' ∈ seed t := (List.perm_insertionSort SLE (seed t)).mem_iff.1 hs'
  obtain ⟨i, hi, rfl⟩ := List.mem_map.1 hs0
  obtain ⟨i', hi', rfl⟩ := List.mem_map.1 hs0'
  rw [List.mem_range] at hi hi'
  have hd := pairEnc_double t 1 le_rfl (fun i => (t.getD i 0 : Int)) hR0
    (fun i _ => Int.natCast_nonneg _) i i' hi hi'
  norm_num at hd
  unfold SLE pairOf
  simpa using hd

theorem saLoop_inv (t : List Nat) : ∀ m k L (hk : 0 < k), 2 * t.length - k ≤ m → 2 ≤ k →
    k % 2 = 0 → LoopInv t (k / 2) L →
    ((saLoop t k L hk).map Sfx.index).Perm (List.range t.length) ∧
      List.Pairwise SLE (saLoop t k L hk) ∧
      ∃ h, t.length ≤ h ∧ PairEnc t h (saLoop t k L hk) := by
  intro m
  induction m with
  | zero =>
    intro k L hk hm h2 he hinv
    rw [saLoop, dif_neg (by omega)]
    exact ⟨hinv.1, hinv.2.1, ⟨k / 2, by omega, hinv.2.2⟩⟩
  | succ m ih =>
    intro k L hk hm h2 he hinv
    rw [saLoop]
    by_cases hg : k < 2 * t.length
    · rw [dif_pos hg]
      refine ih (2 * k) (step t k L) (by omega) (by omega) (by omega) (by omega) ?_
      rw [show 2 * k / 2 = k by omega]
      exact step_inv t k L h2 he hinv
    · rw [dif_neg hg]
      exact ⟨hinv.1, hinv.2.1, ⟨k / 2, by omega, hinv.2.2⟩⟩

/-- Full specification of `buildSuffixArray`: the result is a permutation of
`[0, N)` whose adjacent entries start lexicographically nondecreasing
suffixes. -/
theorem buildSuffixArray_spec (t : List Nat) :
    (buildSuffixArray t).Perm (List.range t.length) ∧
      List.Chain' (SufLe t) (buildSuffixArray t) := by
  unfold buildSuffixArray
  have hmain := saLoop_inv t (2 * t.length) 4 (List.insertionSort SLE (seed t)) (by omega)
    (by omega) (by omega) (by omega) (seed_inv t)
  obtain ⟨hperm, hsort, h, hh, henc⟩ := hmain
  constructor
  · exact hperm
  · have hpw : List.Pairwise (fun a b : Sfx => SufLe t a.index b.index)
        (saLoop t 4 (List.insertionSort SLE (seed t)) (by omega)) := by
      refine hsort.imp_of_mem ?_
      intro a b ha hb hab
      have hkk := (henc a ha b hb).1 hab
      rwa [key_eq_drop t h _ (by omega), key_eq_drop t h _ (by omega)] at hkk
    rw [List.chain'_map]
    exact hpw.chain'

/-- The loop invariant holds at the head of every doubling iteration `j`, for
window length `2 * 2 ^ j` (half the loop variable `4 * 2 ^ j`). -/
theorem headState_inv (t : List Nat) (j : Nat) : LoopInv t (2 * 2 ^ j) (headState t j) := by
  induction j with
  | zero => exact seed_inv t
  | succ j ih =>
    have h1 : 1 ≤ 2 ^ j := Nat.one_le_two_pow
    have hs := step_inv t (4 * 2 ^ j) (headState t j) (by omega) (by omega) ?_
    · rw [show 2 * 2 ^ (j + 1) = 4 * 2 ^ j by rw [pow_succ]; ring]
      exact hs
    · rw [show 4 * 2 ^ j / 2 = 2 * 2 ^ j by omega]
      exact ih

/-- C1: for every text, the array returned by `buildSuffixArray` is
lexicographically sorted — for every adjacent pair of positions, the suffix
starting at the earlier entry is lexicographically no greater than the suffix
starting at the later entry, comparing characters by ordinal value. -/
theorem C1_suffix_array_sorted (t : List Nat) :
    List.Chain' (SufLe t) (buildSuffixArray t) :=
  (buildSuffixArray_spec t).2

/-- C2: for every text of length `N`, the array returned by
`buildSuffixArray` has length `N` and is a permutation of `[0, N)`: every
integer in `[0, N)` appears exactly once. -/
theorem C2_suffix_array_perm (t : List Nat) :
    (buildSuffixArray t).Perm (List.range t.length) ∧
      (buildSuffixArray t).length = t.length :=
  ⟨(buildSuffixArray_spec t).1,
    by rw [(buildSuffixArray_spec t).1.length_eq, List.length_range]⟩

/-- C7: `buildSuffixArray` on the empty text returns the empty array, and on
every text of length 1 returns `[0]`. -/
theorem C7_small_texts :
    buildSuffixArray [] = [] ∧ ∀ c : Nat, buildSuffixArray [c] = [0] := by
  constructor
  · unfold buildSuffixArray
    rw [saLoop, dif_neg (by simp)]
    simp [seed]
  · intro c
    unfold buildSuffixArray
    rw [saLoop, dif_neg (by norm_num)]
    simp [seed, List.insertionSort, List.orderedInsert]

/-- C6 (counterexample): on the text `[1, 1, 1, 2]` (length `N = 4`), the
doubling iteration with loop value `k = 4` executes (`4 < 2 * 4`), and after
its re-ranking pass the suffixes starting at offsets `0` and `1` carry equal
dense `rank[0]` (both are in the class of the length-2 window `[1, 1]`),
while their first `min(k, N) = 4` characters `[1, 1, 1, 2]` and `[1, 1, 2]`
differ.  So equal dense rank does not coincide with identity of the first
`min(k, N)` characters after the re-ranking pass of iteration `k`. -/
theorem C6_counterexample :
    ¬((rank0At (rerank (headState [1, 1, 1, 2] 0)) 0 =
        rank0At (rerank (headState [1, 1, 1, 2] 0)) 1) ↔
      (key [1, 1, 1, 2] 4 0 = key [1, 1, 1, 2] 4 1)) := by
  decide

/-- C6 (amended): after the seed sort, two suffix records carry equal
`rank[0]` iff the first characters of their suffixes are identical; after the
re-ranking pass of the doubling iteration with loop value `k = 4 * 2 ^ j`,
two records carry equal dense `rank[0]` iff the first `min(k / 2, N)`
characters of their suffixes are identical (the re-ranking pass numbers the
equivalence classes of the rank pairs of the previous stage, which encode
windows of length `k / 2`, not `k`). -/
theorem C6_amended_rank_classes (t : List Nat) :
    (∀ s ∈ headState t 0, ∀ s' ∈ headState t 0,
      (s.rank0 = s'.rank0 ↔ key t 1 s.index = key t 1 s'.index)) ∧
    (∀ j, 4 * 2 ^ j < 2 * t.length →
      ∀ s ∈ rerank (headState t j), ∀ s' ∈ rerank (headState t j),
        (s.rank0 = s'.rank0 ↔
          key t (4 * 2 ^ j / 2) s.index = key t (4 * 2 ^ j / 2) s'.index)) := by
  constructor
  · intro s hs s' hs'
    have hs0 : s ∈ seed t := (List.perm_insertionSort SLE (seed t)).mem_iff.1 hs
    have hs0' : s' ∈ seed t := (List.perm_insertionSort SLE (seed t)).mem_iff.1 hs'
    obtain ⟨i, hi, rfl⟩ := List.mem_map.1 hs0
    obtain ⟨i', hi', rfl⟩ := List.mem_map.1 hs0'
    rw [List.mem_range] at hi hi'
    dsimp only
    rw [key_one t i hi, key_one t i' hi']
    constructor
    · intro he
      have hce : t.getD i 0 = t.getD i' 0 := by exact_mod_cast he
      rw [hce]
    · intro he
      simp only [List.cons.injEq, and_true] at he
      exact_mod_cast he
  · intro j hj s hs s' hs'
    have hinv := headState_inv t j
    rw [show 4 * 2 ^ j / 2 = 2 * 2 ^ j by omega]
    exact (rerank_enc t (2 * 2 ^ j) (headState t j) hinv.2.1 hinv.2.2 s hs s' hs').2.2

/-- Witness for the amended C6, on the text `[1, 1, 2]`: after the seed sort
the records at offsets `0` and `1` share `rank[0] = 1` and share their first
character; after the re-ranking pass of iteration `j = 0` (loop value `4`,
window `4 / 2 = 2`) they have distinct dense ranks `0` and `1` and distinct
length-2 windows. -/
theorem C6_amended_witness :
    ((Sfx.mk 0 1 1).rank0 = (Sfx.mk 1 1 2).rank0 ↔
      key [1, 1, 2] 1 (Sfx.mk 0 1 1).index = key [1, 1, 2] 1 (Sfx.mk 1 1 2).index) ∧
    ((Sfx.mk 0 0 1).rank0 = (Sfx.mk 1 1 2).rank0 ↔
      key [1, 1, 2] (4 * 2 ^ 0 / 2) (Sfx.mk 0 0 1).index =
        key [1, 1, 2] (4 * 2 ^ 0 / 2) (Sfx.mk 1 1 2).index) :=
  ⟨(C6_amended_rank_classes [1, 1, 2]).1 _ (by decide) _ (by decide),
   (C6_amended_rank_classes [1, 1, 2]).2 0 (by decide) _ (by decide) _ (by decide)⟩

/-! ### Longest common prefixes and Kasai's algorithm -/

theorem getD_set_self (l : List Int) (i : Nat) (v : Int) (hi : i < l.length) :
    (l.set i v).getD i 0 = v := by
  rw [List.getD_eq_getElem?_getD, List.getElem?_set_self hi]
  rfl

theorem getD_set_ne (l : List Int) (i j : Nat) (v : Int) (hij : i ≠ j) :
    (l.set i v).getD j 0 = l.getD j 0 := by
  rw [List.getD_eq_getElem?_getD, List.getElem?_set_ne hij, ← List.getD_eq_getElem?_getD]

theorem getD_drop (t : List Nat) (i u : Nat) : (t.drop i).getD u 0 = t.getD (i + u) 0 := by
  rw [List.getD_eq_getElem?_getD, List.getD_eq_getElem?_getD, List.getElem?_drop]

theorem lcpLen_comm (a b : List Nat) : lcpLen a b = lcpLen b a := by
  induction a generalizing b with
  | nil => cases b <;> simp [lcpLen]
  | cons x as ih =>
    cases b with
    | nil => simp [lcpLen]
    | cons y bs =>
      simp only [lcpLen]
      by_cases hxy : x = y
      · subst hxy
        simp [ih bs]
      · simp [hxy, Ne.symm hxy]

theorem lcpLen_le_left (a b : List Nat) : lcpLen a b ≤ a.length := by
  induction a generalizing b with
  | nil => cases b <;> simp [lcpLen]
  | cons x as ih =>
    cases b with
    | nil => simp [lcpLen]
    | cons y bs =>
      simp only [lcpLen, List.length_cons]
      split_ifs
      · have := ih bs
        omega
      · omega

theorem lcpLen_le_right (a b : List Nat) : lcpLen a b ≤ b.length := by
  rw [lcpLen_comm]
  exact lcpLen_le_left b a

theorem lcpLen_getD_eq (a b : List Nat) (u : Nat) (hu : u < lcpLen a b) :
    a.getD u 0 = b.getD u 0 := by
  induction a generalizing b u with
  | nil => cases b <;> simp [lcpLen] at hu
  | cons x as ih =>
    cases b with
    | nil => simp [lcpLen] at hu
    | cons y bs =>
      simp only [lcpLen] at hu
      split_ifs at hu with hxy
      · cases u with
        | zero => simpa [List.getD_cons_zero] using hxy
        | succ u0 => simpa [List.getD_cons_succ] using ih bs u0 (by omega)
      · omega

theorem lcpLen_cons' (x : Nat) (as bs : List Nat) :
    lcpLen (x :: as) (x :: bs) = lcpLen as bs + 1 := by
  simp [lcpLen]

theorem lcpLen_stop (a b : List Nat) (ha : lcpLen a b < a.length) (hb : lcpLen a b < b.length) :
    a.getD (lcpLen a b) 0 ≠ b.getD (lcpLen a b) 0 := by
  induction a generalizing b with
  | nil => simp at ha
  | cons x as ih =>
    cases b with
    | nil => simp at hb
    | cons y bs =>
      by_cases hxy : x = y
      · subst hxy
        rw [lcpLen_cons'] at ha hb ⊢
        · simp only [List.getD_cons_succ]
          exact ih bs (by simpa using ha) (by simpa using hb)
      · have hz : lcpLen (x :: as) (y :: bs) = 0 := by simp [lcpLen, hxy]
        rw [hz]
        simpa [List.getD_cons_zero] using hxy

theorem lcpLen_drop_succ (t : List Nat) (i j : Nat) (hi : i < t.length) (hj : j < t.length)
    (hc : t.getD i 0 = t.getD j 0) :
    lcpLen (t.drop i) (t.drop j) = lcpLen (t.drop (i + 1)) (t.drop (j + 1)) + 1 := by
  have hgc : t[i] = t[j] := by
    rw [← List.getD_eq_getElem t 0 hi, ← List.getD_eq_getElem t 0 hj]
    exact hc
  rw [List.drop_eq_getElem_cons hi, List.drop_eq_getElem_cons hj, hgc, lcpLen_cons']

theorem lcpLen_le_of_between (a b c : List Nat) (hab : LexLe a b) (hbc : LexLe b c) :
    lcpLen a c ≤ lcpLen a b := by
  induction a generalizing b c with
  | nil => cases c <;> simp [lcpLen]
  | cons x as ih =>
    cases c with
    | nil => simp [lcpLen]
    | cons z cs =>
      by_cases hxz : x = z
      · subst hxz
        rw [lcpLen_cons']
        cases b with
        | nil =>
          exfalso
          unfold LexLe at hab
          rw [listCmp_nonempty_nil] at hab
          omega
        | cons y bs =>
          have hyx : y = x := by
            unfold LexLe at hab hbc
            simp only [listCmp] at hab hbc
            split_ifs at hab hbc <;> omega
          subst hyx
          rw [lcpLen_cons']
          have h1 : LexLe as bs := by
            unfold LexLe at hab ⊢
            rwa [listCmp_cons_same] at hab
          have h2 : LexLe bs cs := by
            unfold LexLe at hbc ⊢
            rwa [listCmp_cons_same] at hbc
          have := ih bs cs h1 h2
          omega
      · simp [lcpLen, hxz]

theorem scanK_eq (t : List Nat) (i j : Nat) :
    ∀ d k, k ≤ lcpLen (t.drop i) (t.drop j) → lcpLen (t.drop i) (t.drop j) - k = d →
      scanK t i j k = lcpLen (t.drop i) (t.drop j) := by
  intro d
  induction d with
  | zero =>
    intro k hk hd
    have hkL : k = lcpLen (t.drop i) (t.drop j) := by omega
    subst hkL
    rw [scanK, dif_neg]
    rintro ⟨h1, h2, h3⟩
    have hla : lcpLen (t.drop i) (t.drop j) < (t.drop i).length := by
      rw [List.length_drop]
      omega
    have hlb : lcpLen (t.drop i) (t.drop j) < (t.drop j).length := by
      rw [List.length_drop]
      omega
    have hstop := lcpLen_stop (t.drop i) (t.drop j) hla hlb
    rw [getD_drop, getD_drop] at hstop
    exact hstop h3
  | succ d ih =>
    intro k hk hd
    have hkL : k < lcpLen (t.drop i) (t.drop j) := by omega
    rw [scanK, dif_pos]
    · exact ih (k + 1) (by omega) (by omega)
    · refine ⟨?_, ?_, ?_⟩
      · have := lcpLen_le_left (t.drop i) (t.drop j)
        rw [List.length_drop] at this
        omega
      · have := lcpLen_le_right (t.drop i) (t.drop j)
        rw [List.length_drop] at this
        omega
      · have := lcpLen_getD_eq (t.drop i) (t.drop j) k hkL
        rwa [getD_drop, getD_drop] at this

theorem valid_length {t sa : List Nat} (hv : Valid t sa) : sa.length = t.length := by
  rw [hv.1.length_eq, List.length_range]

theorem valid_nodup {t sa : List Nat} (hv : Valid t sa) : sa.Nodup :=
  hv.1.nodup_iff.2 (List.nodup_range _)

theorem valid_mem_lt {t sa : List Nat} (hv : Valid t sa) (i : Nat) (hi : i ∈ sa) :
    i < t.length := by
  have := hv.1.mem_iff.1 hi
  simpa using this

theorem valid_mem {t sa : List Nat} (hv : Valid t sa) (i : Nat) (hi : i < t.length) : i ∈ sa :=
  hv.1.mem_iff.2 (by simpa using hi)

theorem valid_rank_lt {t sa : List Nat} (hv : Valid t sa) (i : Nat) (hi : i < t.length) :
    rankOf sa i < sa.length :=
  List.indexOf_lt_length.2 (valid_mem hv i hi)

theorem valid_getD_lt {t sa : List Nat} (hv : Valid t sa) (p : Nat) (hp : p < sa.length) :
    sa.getD p 0 < t.length := by
  rw [List.getD_eq_getElem sa 0 hp]
  exact valid_mem_lt hv _ (List.getElem_mem hp)

theorem valid_get_rank {t sa : List Nat} (hv : Valid t sa) (i : Nat) (hi : i < t.length) :
    sa.getD (rankOf sa i) 0 = i := by
  rw [List.getD_eq_getElem sa 0 (valid_rank_lt hv i hi)]
  exact List.getElem_indexOf (List.indexOf_lt_length.2 (valid_mem hv i hi))

theorem valid_rank_getD {t sa : List Nat} (hv : Valid t sa) (p : Nat) (hp : p < sa.length) :
    rankOf sa (sa.getD p 0) = p := by
  rw [List.getD_eq_getElem sa 0 hp]
  exact List.indexOf_getElem (valid_nodup hv) p hp

theorem valid_pairwise {t sa : List Nat} (hv : Valid t sa) : List.Pairwise (SufLe t) sa := by
  haveI : IsTrans Nat (SufLe t) := ⟨fun a b c hab hbc => lexLe_trans hab hbc⟩
  exact List.chain'_iff_pairwise.1 hv.2

theorem valid_sufLe {t sa : List Nat} (hv : Valid t sa) (p q : Nat) (hpq : p ≤ q)
    (hq : q < sa.length) : LexLe (t.drop (sa.getD p 0)) (t.drop (sa.getD q 0)) := by
  rcases Nat.lt_or_ge p q with hlt | hge
  · have := List.pairwise_iff_getElem.1 (valid_pairwise hv) p q (by omega) hq hlt
    rwa [List.getD_eq_getElem sa 0 (by omega), List.getD_eq_getElem sa 0 hq]
  · have : p = q := by omega
    subst this
    exact lexLe_refl _

theorem valid_strict {t sa : List Nat} (hv : Valid t sa) (p q : Nat) (hpq : p < q)
    (hq : q < sa.length) : listCmp (t.drop (sa.getD p 0)) (t.drop (sa.getD q 0)) < 0 := by
  have hle := valid_sufLe hv p q (by omega) hq
  have hne : t.drop (sa.getD p 0) ≠ t.drop (sa.getD q 0) := by
    intro he
    have hlen := congrArg List.length he
    rw [List.length_drop, List.length_drop] at hlen
    have h1 : sa.getD p 0 < t.length := valid_getD_lt hv p (by omega)
    have h2 : sa.getD q 0 < t.length := valid_getD_lt hv q hq
    have h3 : sa.getD p 0 = sa.getD q 0 := by omega
    rw [List.getD_eq_getElem sa 0 (by omega), List.getD_eq_getElem sa 0 hq] at h3
    have := ((valid_nodup hv).getElem_inj_iff).1 h3
    omega
  unfold LexLe at hle
  rcases lt_or_eq_of_le hle with hlt | heq
  · exact hlt
  · exact absurd ((listCmp_eq_zero_iff _ _).1 heq) hne

theorem valid_rank_mono {t sa : List Nat} (hv : Valid t sa) (a b : Nat) (ha : a < t.length)
    (hb : b < t.length) (hab : listCmp (t.drop a) (t.drop b) < 0) :
    rankOf sa a < rankOf sa b := by
  by_contra hcon
  push_neg at hcon
  have := valid_sufLe hv (rankOf sa b) (rankOf sa a) hcon (valid_rank_lt hv a ha)
  rw [valid_get_rank hv b hb, valid_get_rank hv a ha] at this
  unfold LexLe at this
  rw [listCmp_swap] at this
  omega

/-- The amortization step of Kasai's algorithm: when moving from text
position `i` to `i + 1`, the LCP with the next-sorted suffix drops by at
most one. -/
theorem kasai_carry (t sa : List Nat) (hv : Valid t sa) (i : Nat) (hi : i < t.length)
    (hri : rankOf sa i ≠ t.length - 1)
    (hi1 : i + 1 < t.length) (hri1 : rankOf sa (i + 1) ≠ t.length - 1) :
    lcpLen (t.drop i) (t.drop (sa.getD (rankOf sa i + 1) 0)) - 1 ≤
      lcpLen (t.drop (i + 1)) (t.drop (sa.getD (rankOf sa (i + 1) + 1) 0)) := by
  by_cases h2 : lcpLen (t.drop i) (t.drop (sa.getD (rankOf sa i + 1) 0)) ≤ 1
  · omega
  push_neg at h2
  have hlen : sa.length = t.length := valid_length hv
  have hrlt : rankOf sa i < sa.length := valid_rank_lt hv i hi
  have hr1lt : rankOf sa i + 1 < sa.length := by omega
  have hjlt : sa.getD (rankOf sa i + 1) 0 < t.length := valid_getD_lt hv _ hr1lt
  have hij : i ≠ sa.getD (rankOf sa i + 1) 0 := by
    intro he
    have hx : rankOf sa (sa.getD (rankOf sa i + 1) 0) = rankOf sa i + 1 :=
      valid_rank_getD hv _ hr1lt
    rw [← he] at hx
    omega
  have hc : t.getD i 0 = t.getD (sa.getD (rankOf sa i + 1) 0) 0 := by
    have := lcpLen_getD_eq (t.drop i) (t.drop (sa.getD (rankOf sa i + 1) 0)) 0 (by omega)
    rwa [getD_drop, getD_drop, Nat.add_zero, Nat.add_zero] at this
  have hhle : lcpLen (t.drop i) (t.drop (sa.getD (rankOf sa i + 1) 0)) ≤ t.length - i := by
    have := lcpLen_le_left (t.drop i) (t.drop (sa.getD (rankOf sa i + 1) 0))
    rwa [List.length_drop] at this
  have hhle' : lcpLen (t.drop i) (t.drop (sa.getD (rankOf sa i + 1) 0)) ≤
      t.length - sa.getD (rankOf sa i + 1) 0 := by
    have := lcpLen_le_right (t.drop i) (t.drop (sa.getD (rankOf sa i + 1) 0))
    rwa [List.length_drop] at this
  have hj1 : sa.getD (rankOf sa i + 1) 0 + 1 < t.length := by omega
  have hdec := lcpLen_drop_succ t i (sa.getD (rankOf sa i + 1) 0) hi hjlt hc
  have hlex1 : LexLe (t.drop i) (t.drop (sa.getD (rankOf sa i + 1) 0)) := by
    have := valid_sufLe hv (rankOf sa i) (rankOf sa i + 1) (by omega) hr1lt
    rwa [valid_get_rank hv i hi] at this
  have hgc : t[i] = t[sa.getD (rankOf sa i + 1) 0] := by
    rw [← List.getD_eq_getElem t 0 hi, ← List.getD_eq_getElem t 0 hjlt]
    exact hc
  have htail : LexLe (t.drop (i + 1)) (t.drop (sa.getD (rankOf sa i + 1) 0 + 1)) := by
    unfold LexLe at hlex1 ⊢
    rw [List.drop_eq_getElem_cons hi, List.drop_eq_getElem_cons hjlt, hgc,
      listCmp_cons_same] at hlex1
    exact hlex1
  have hne : t.drop (i + 1) ≠ t.drop (sa.getD (rankOf sa i + 1) 0 + 1) := by
    intro he
    have hlen2 := congrArg List.length he
    rw [List.length_drop, List.length_drop] at hlen2
    omega
  have hlex_succ : listCmp (t.drop (i + 1)) (t.drop (sa.getD (rankOf sa i + 1) 0 + 1)) < 0 := by
    unfold LexLe at htail
    rcases lt_or_eq_of_le htail with hlt | heq
    · exact hlt
    · exact absurd ((listCmp_eq_zero_iff _ _).1 heq) hne
  have hrmono := valid_rank_mono hv (i + 1) (sa.getD (rankOf sa i + 1) 0 + 1) hi1 hj1 hlex_succ
  have hr1lt' : rankOf sa (i + 1) < sa.length := valid_rank_lt hv (i + 1) hi1
  have hr1p1 : rankOf sa (i + 1) + 1 < sa.length := by omega
  have hab : LexLe (t.drop (i + 1)) (t.drop (sa.getD (rankOf sa (i + 1) + 1) 0)) := by
    have := valid_sufLe hv (rankOf sa (i + 1)) (rankOf sa (i + 1) + 1) (by omega) hr1p1
    rwa [valid_get_rank hv (i + 1) hi1] at this
  have hbc : LexLe (t.drop (sa.getD (rankOf sa (i + 1) + 1) 0))
      (t.drop (sa.getD (rankOf sa i + 1) 0 + 1)) := by
    have := valid_sufLe hv (rankOf sa (i + 1) + 1)
      (rankOf sa (sa.getD (rankOf sa i + 1) 0 + 1)) (by omega)
      (valid_rank_lt hv _ hj1)
    rwa [valid_get_rank hv _ hj1] at this
  have hbet := lcpLen_le_of_between _ _ _ hab hbc
  omega

/-- Invariant of Kasai's loop after processing text positions `0, …, m - 1`:
the buffer keeps its length; the carried match length is a lower bound for
the next LCP to compute; sorted positions whose suffix start is below `m`
hold their final LCP value; all other positions still hold the initial
buffer contents. -/
theorem kasai_fold_inv (t sa : List Nat) (init : List Int) (hv : Valid t sa)
    (hinit : init.length = t.length) : ∀ m, m ≤ t.length →
    (((List.range m).foldl (kasaiStep t sa) (0, init)).2.length = init.length) ∧
    (m < t.length → rankOf sa m ≠ t.length - 1 →
      ((List.range m).foldl (kasaiStep t sa) (0, init)).1 ≤
        lcpLen (t.drop m) (t.drop (sa.getD (rankOf sa m + 1) 0))) ∧
    (∀ p, p + 1 < t.length → sa.getD p 0 < m →
      ((List.range m).foldl (kasaiStep t sa) (0, init)).2.getD p 0 =
        (lcpLen (t.drop (sa.getD p 0)) (t.drop (sa.getD (p + 1) 0)) : Int)) ∧
    (∀ p, p + 1 < t.length → m ≤ sa.getD p 0 →
      ((List.range m).foldl (kasaiStep t sa) (0, init)).2.getD p 0 = init.getD p 0) ∧
    (∀ p, t.length - 1 ≤ p →
      ((List.range m).foldl (kasaiStep t sa) (0, init)).2.getD p 0 = init.getD p 0) := by
  intro m
  induction m with
  | zero =>
    intro hm
    simp only [List.range_zero, List.foldl_nil]
    refine ⟨trivial, fun _ _ => Nat.zero_le _, fun p hp hplt => by omega,
      fun p hp hge => trivial, fun p hp => trivial⟩
  | succ m ih =>
    intro hm
    have hmn : m < t.length := by omega
    obtain ⟨ihlen, ihk, ihw, ihu, ihlast⟩ := ih (by omega)
    rw [List.range_succ, List.foldl_append, List.foldl_cons, List.foldl_nil]
    by_cases hrm : rankOf sa m = t.length - 1
    · rw [kasaiStep, if_pos hrm]
      refine ⟨ihlen, fun _ _ => Nat.zero_le _, ?_, ?_, ihlast⟩
      · intro p hp hplt
        rcases Nat.lt_or_ge (sa.getD p 0) m with hlt | hge
        · exact ihw p hp hlt
        · exfalso
          have hpm : sa.getD p 0 = m := by omega
          have hpr := valid_rank_getD hv p (by rw [valid_length hv]; omega)
          rw [hpm, hrm] at hpr
          omega
      · intro p hp hge
        exact ihu p hp (by omega)
    · have hlen : sa.length = t.length := valid_length hv
      have hrlt : rankOf sa m < sa.length := valid_rank_lt hv m hmn
      have hr1lt : rankOf sa m + 1 < sa.length := by omega
      have hkle := ihk hmn hrm
      have hscan := scanK_eq t m (sa.getD (rankOf sa m + 1) 0)
        (lcpLen (t.drop m) (t.drop (sa.getD (rankOf sa m + 1) 0)) -
          ((List.range m).foldl (kasaiStep t sa) (0, init)).1)
        ((List.range m).foldl (kasaiStep t sa) (0, init)).1 hkle rfl
      rw [kasaiStep, if_neg hrm]
      simp only [hscan]
      refine ⟨?_, ?_, ?_, ?_, ?_⟩
      · rw [List.length_set]
        exact ihlen
      · intro hm1 hrm1
        have hcar := kasai_carry t sa hv m hmn hrm hm1 hrm1
        split_ifs with h0 <;> omega
      · intro p hp hplt
        rcases Nat.lt_or_ge (sa.getD p 0) m with hlt | hge
        · have hpne : p ≠ rankOf sa m := by
            intro he
            have hgr := valid_get_rank hv m hmn
            rw [← he] at hgr
            omega
          rw [getD_set_ne _ _ _ _ (Ne.symm hpne)]
          exact ihw p hp hlt
        · have hpm : sa.getD p 0 = m := by omega
          have hpr : p = rankOf sa m := by
            have hx := valid_rank_getD hv p (by omega)
            rw [hpm] at hx
            omega
          rw [hpm, hpr, getD_set_self _ _ _ (by rw [ihlen, hinit]; omega)]
      · intro p hp hge
        have hpne : p ≠ rankOf sa m := by
          intro he
          have hgr := valid_get_rank hv m hmn
          rw [← he] at hgr
          omega
        rw [getD_set_ne _ _ _ _ (Ne.symm hpne)]
        exact ihu p hp (by omega)
      · intro p hple
        have hpne : p ≠ rankOf sa m := by omega
        rw [getD_set_ne _ _ _ _ (Ne.symm hpne)]
        exact ihlast p hple

/-- Full specification of `buildLCPArray` under the stated precondition: the
output keeps the `N` slots of the buffer, sorted positions `0 … N - 2` hold
the LCP of the adjacent sorted suffixes, and positions from `N - 1` on still
hold the initial buffer contents. -/
theorem buildLCPArray_spec (t sa : List Nat) (init : List Int) (hv : Valid t sa)
    (hinit : init.length = t.length) :
    (buildLCPArray t sa init).length = t.length ∧
    (∀ p, p + 1 < t.length →
      (buildLCPArray t sa init).getD p 0 =
        (lcpLen (t.drop (sa.getD p 0)) (t.drop (sa.getD (p + 1) 0)) : Int)) ∧
    (∀ p, t.length - 1 ≤ p → (buildLCPArray t sa init).getD p 0 = init.getD p 0) := by
  obtain ⟨hlen, -, hw, -, hlast⟩ := kasai_fold_inv t sa init hv hinit t.length le_rfl
  unfold buildLCPArray
  refine ⟨by rw [hlen, hinit], ?_, hlast⟩
  intro p hp
  exact hw p hp (valid_getD_lt hv p (by rw [valid_length hv]; omega))

theorem chain'_of_chainOk (t : List Nat) (l : List Nat) (h : chainOk t l = true) :
    List.Chain' (SufLe t) l := by
  induction l with
  | nil => exact List.chain'_nil
  | cons a rest ih =>
    cases rest with
    | nil => exact List.chain'_singleton a
    | cons b rest' =>
      simp only [chainOk, Bool.and_eq_true, decide_eq_true_eq] at h
      exact List.chain'_cons.2 ⟨h.1, ih h.2⟩

/-- Establishes the `Valid` precondition from executable checks (used by the
concrete witnesses; the `Decidable` instances of `List.Perm` and
`List.Chain'` do not reduce in the kernel). -/
theorem valid_of_checks (t sa : List Nat) (h1 : sa.isPerm (List.range t.length) = true)
    (h2 : chainOk t sa = true) : Valid t sa :=
  ⟨List.isPerm_iff.1 h1, chain'_of_chainOk t sa h2⟩

/-- C3: for every text, every valid suffix array for it, and every initial
buffer of `N` slots, the array returned by `buildLCPArray` holds, at every
sorted position `p` with `p + 1 < N`, the length of the longest common
prefix of the suffix starting at `SA[p]` and the suffix starting at
`SA[p + 1]`. -/
theorem C3_lcp_correct (t sa : List Nat) (init : List Int) (hv : Valid t sa)
    (hinit : init.length = t.length) (p : Nat) (hp : p + 1 < t.length) :
    (buildLCPArray t sa init).getD p 0 =
      (lcpLen (t.drop (sa.getD p 0)) (t.drop (sa.getD (p + 1) 0)) : Int) :=
  (buildLCPArray_spec t sa init hv hinit).2.1 p hp

/-- Witness for C3 on the text `[1, 1]` with suffix array `[1, 0]`: the LCP
of the suffixes `[1]` and `[1, 1]` is `1`. -/
theorem C3_lcp_correct_witness :
    (buildLCPArray [1, 1] [1, 0] [5, 7]).getD 0 0 =
      (lcpLen ([1, 1].drop ([1, 0].getD 0 0)) ([1, 1].drop ([1, 0].getD 1 0)) : Int) :=
  C3_lcp_correct [1, 1] [1, 0] [5, 7] (valid_of_checks _ _ (by decide) (by decide))
    (by decide) 0 (by decide)

/-- C10: for every text of length `N ≥ 1` with a valid suffix array,
`buildLCPArray` keeps all `N` buffer slots but never writes slot `N - 1`:
that slot still holds whatever the buffer initially contained (in
particular, it is not guaranteed to be zero). -/
theorem C10_last_slot_unwritten (t sa : List Nat) (init : List Int) (hv : Valid t sa)
    (hn : 1 ≤ t.length) (hinit : init.length = t.length) :
    (buildLCPArray t sa init).length = t.length ∧
      (buildLCPArray t sa init).getD (t.length - 1) 0 = init.getD (t.length - 1) 0 :=
  ⟨(buildLCPArray_spec t sa init hv hinit).1,
    (buildLCPArray_spec t sa init hv hinit).2.2 (t.length - 1) le_rfl⟩

/-- Witness for C10 on the text `[1, 1]` with suffix array `[1, 0]` and a
buffer initially holding `[5, 7]`: the last slot still holds `7`. -/
theorem C10_last_slot_unwritten_witness :
    (buildLCPArray [1, 1] [1, 0] [5, 7]).length = [1, 1].length ∧
      (buildLCPArray [1, 1] [1, 0] [5, 7]).getD ([1, 1].length - 1) 0 =
        [5, 7].getD ([1, 1].length - 1) 0 :=
  C10_last_slot_unwritten [1, 1] [1, 0] [5, 7]
    (valid_of_checks _ _ (by decide) (by decide)) (by decide) (by decide)

/-! ### Binary search over the suffix array -/

theorem strncmp_zero_fuel (a b : List Nat) : strncmp a b 0 = 0 := by
  cases a <;> cases b <;> rfl

theorem listCmp_lt_of_lt_of_le (a b c : List Nat) (h1 : listCmp a b < 0)
    (h2 : listCmp b c ≤ 0) : listCmp a c < 0 := by
  have hle := listCmp_trans_le a b c (le_of_lt h1) h2
  rcases lt_or_eq_of_le hle with hlt | heq
  · exact hlt
  · exfalso
    have hac : a = c := (listCmp_eq_zero_iff _ _).1 heq
    subst hac
    have := listCmp_swap a b
    omega

theorem lexLe_take (a b : List Nat) (m : Nat) (h : LexLe a b) :
    LexLe (a.take m) (b.take m) := by
  induction a generalizing b m with
  | nil => simpa using lexLe_nil (b.take m)
  | cons x as ih =>
    cases b with
    | nil =>
      exfalso
      unfold LexLe at h
      rw [listCmp_nonempty_nil] at h
      omega
    | cons y bs =>
      cases m with
      | zero =>
        simpa [List.take_zero] using lexLe_refl []
      | succ m0 =>
        simp only [List.take_succ_cons]
        unfold LexLe at h ⊢
        simp only [listCmp] at h ⊢
        split_ifs at h ⊢ <;> first | omega | exact ih bs m0 h

theorem strncmp_eq_listCmp (pat s : List Nat) :
    strncmp pat s pat.length = listCmp pat (s.take pat.length) := by
  induction pat generalizing s with
  | nil => cases s <;> rfl
  | cons a as ih =>
    cases s with
    | nil => simp [strncmp, listCmp]
    | cons b bs =>
      simp only [List.length_cons, strncmp, List.take_succ_cons, listCmp]
      split_ifs <;> first | rfl | exact ih bs

/-- Soundness of the binary-search loop: a nonnegative result is an entry of
the suffix array whose suffix starts with the pattern. -/
theorem searchLoop_sound (t sa pat : List Nat) :
    ∀ d low high1, high1 - low ≤ d → high1 ≤ sa.length →
      0 ≤ searchLoop t sa pat low high1 →
      ∃ mid, mid < sa.length ∧ searchLoop t sa pat low high1 = (sa.getD mid 0 : Int) ∧
        strncmp pat (t.drop (sa.getD mid 0)) pat.length = 0 := by
  intro d
  induction d with
  | zero =>
    intro low high1 hd hh hres
    rw [searchLoop, if_neg (by omega)] at hres
    exact absurd hres (by decide)
  | succ d ih =>
    intro low high1 hd hh hres
    by_cases hlh : low < high1
    · rw [searchLoop, if_pos hlh] at hres ⊢
      by_cases h0 : strncmp pat (t.drop (sa.getD ((low + (high1 - 1)) / 2) 0)) pat.length = 0
      · rw [if_pos h0] at hres ⊢
        exact ⟨(low + (high1 - 1)) / 2, by omega, rfl, h0⟩
      · rw [if_neg h0] at hres ⊢
        by_cases hneg : strncmp pat (t.drop (sa.getD ((low + (high1 - 1)) / 2) 0)) pat.length < 0
        · rw [if_pos hneg] at hres ⊢
          exact ih low ((low + (high1 - 1)) / 2) (by omega) (by omega) hres
        · rw [if_neg hneg] at hres ⊢
          exact ih ((low + (high1 - 1)) / 2 + 1) high1 (by omega) hh hres
    · rw [searchLoop, if_neg hlh] at hres
      exact absurd hres (by decide)

/-- Completeness of the binary-search loop: if some sorted position inside
the current range starts with the pattern, the loop does not return `-1`. -/
theorem searchLoop_complete (t sa pat : List Nat) (hv : Valid t sa) :
    ∀ d low high1, high1 - low ≤ d → high1 ≤ sa.length →
      (∃ p, low ≤ p ∧ p < high1 ∧
        listCmp pat ((t.drop (sa.getD p 0)).take pat.length) = 0) →
      searchLoop t sa pat low high1 ≠ -1 := by
  intro d
  induction d with
  | zero =>
    intro low high1 hd hh hex
    obtain ⟨p, hp1, hp2, -⟩ := hex
    omega
  | succ d ih =>
    intro low high1 hd hh hex
    obtain ⟨p, hp1, hp2, hp0⟩ := hex
    have hlh : low < high1 := by omega
    rw [searchLoop, if_pos hlh]
    by_cases h0 : strncmp pat (t.drop (sa.getD ((low + (high1 - 1)) / 2) 0)) pat.length = 0
    · rw [if_pos h0]
      intro hcon
      have := Int.natCast_nonneg (sa.getD ((low + (high1 - 1)) / 2) 0)
      omega
    · rw [if_neg h0]
      rw [strncmp_eq_listCmp] at h0
      by_cases hneg : strncmp pat (t.drop (sa.getD ((low + (high1 - 1)) / 2) 0)) pat.length < 0
      · rw [if_pos hneg]
        rw [strncmp_eq_listCmp] at hneg
        apply ih low ((low + (high1 - 1)) / 2) (by omega) (by omega)
        refine ⟨p, hp1, ?_, hp0⟩
        by_contra hge
        push_neg at hge
        have hpm : (low + (high1 - 1)) / 2 ≠ p := by
          intro he
          rw [he] at hneg
          omega
        have hlt : (low + (high1 - 1)) / 2 < p := by omega
        have hsuf := valid_sufLe hv ((low + (high1 - 1)) / 2) p (by omega) (by omega)
        have htake := lexLe_take _ _ pat.length hsuf
        have hpatB : pat = (t.drop (sa.getD p 0)).take pat.length :=
          (listCmp_eq_zero_iff _ _).1 hp0
        rw [← hpatB] at htake
        have hcon := listCmp_lt_of_lt_of_le pat
          ((t.drop (sa.getD ((low + (high1 - 1)) / 2) 0)).take pat.length) pat hneg htake
        rw [listCmp_self] at hcon
        omega
      · rw [if_neg hneg]
        rw [strncmp_eq_listCmp] at hneg
        apply ih ((low + (high1 - 1)) / 2 + 1) high1 (by omega) hh
        refine ⟨p, ?_, hp2, hp0⟩
        by_contra hle2
        push_neg at hle2
        have hpm : p ≠ (low + (high1 - 1)) / 2 := by
          intro he
          rw [← he] at h0
          exact h0 hp0
        have hlt : p < (low + (high1 - 1)) / 2 := by omega
        have hsuf := valid_sufLe hv p ((low + (high1 - 1)) / 2) (by omega) (by omega)
        have htake := lexLe_take _ _ pat.length hsuf
        have hpatB : pat = (t.drop (sa.getD p 0)).take pat.length :=
          (listCmp_eq_zero_iff _ _).1 hp0
        rw [← hpatB] at htake
        unfold LexLe at htake
        omega

/-- C4: for every text, every valid suffix array for it, and every pattern,
if `searchPattern` returns a nonnegative offset `o` then `o` is a valid
start offset (`o + m ≤ N`) and the `m` characters of the text starting at
`o` equal the pattern exactly. -/
theorem C4_search_sound (t sa pat : List Nat) (hv : Valid t sa)
    (hpos : 0 ≤ searchPattern t sa pat) :
    (searchPattern t sa pat).toNat + pat.length ≤ t.length ∧
      (t.drop (searchPattern t sa pat).toNat).take pat.length = pat := by
  unfold searchPattern at hpos ⊢
  obtain ⟨mid, hmid, heq, h0⟩ := searchLoop_sound t sa pat t.length 0 t.length (by omega)
    (by rw [valid_length hv]) hpos
  rw [heq, Int.toNat_natCast]
  rw [strncmp_eq_listCmp] at h0
  have hpateq : (t.drop (sa.getD mid 0)).take pat.length = pat :=
    ((listCmp_eq_zero_iff _ _).1 h0).symm
  have holt : sa.getD mid 0 < t.length := valid_getD_lt hv mid hmid
  refine ⟨?_, hpateq⟩
  have hlen := congrArg List.length hpateq
  rw [List.length_take, List.length_drop] at hlen
  omega

/-- Witness for C4 on the text `[1]`, its suffix array `[0]`, and the
pattern `[1]`: the search returns offset `0`, and the one character there is
the pattern. -/
theorem C4_search_sound_witness :
    (searchPattern [1] [0] [1]).toNat + [1].length ≤ [1].length ∧
      ([1].drop (searchPattern [1] [0] [1]).toNat).take [1].length = [1] :=
  C4_search_sound [1] [0] [1] (valid_of_checks _ _ (by decide) (by decide))
    (by unfold searchPattern
        rw [searchLoop, if_pos (by norm_num),
          if_pos (show strncmp [1] (List.drop ([0].getD ((0 + ([1].length - 1)) / 2) 0) [1])
            [1].length = 0 from rfl)]
        decide)

/-- C5: for every text, a valid suffix array for it, and every pattern that
occurs in the text at one of its `N` start offsets, `searchPattern` does not
return the not-found sentinel `-1`. -/
theorem C5_search_complete (t sa pat : List Nat) (hv : Valid t sa)
    (hocc : OccursIn t pat) : searchPattern t sa pat ≠ -1 := by
  obtain ⟨o, ho, hmatch⟩ := hocc
  unfold searchPattern
  apply searchLoop_complete t sa pat hv t.length 0 t.length (by omega)
    (by rw [valid_length hv])
  refine ⟨rankOf sa o, Nat.zero_le _, ?_, ?_⟩
  · have := valid_rank_lt hv o ho
    rwa [valid_length hv] at this
  · rw [valid_get_rank hv o ho, hmatch, listCmp_self]

/-- Witness for C5: the pattern `[1, 2]` occurs in the text `[1, 2]` and the
search does not report not-found. -/
theorem C5_search_complete_witness : searchPattern [1, 2] [0, 1] [1, 2] ≠ -1 :=
  C5_search_complete [1, 2] [0, 1] [1, 2] (valid_of_checks _ _ (by decide) (by decide))
    ⟨0, by decide, by decide⟩

/-- C8: on a nonempty text with a valid suffix array, the empty pattern
makes the first `strncmp` return `0`, so `searchPattern` returns
`SA[(N - 1) / 2]` — the first suffix examined — which is a valid offset in
`[0, N)`; in particular the result is not `-1`. -/
theorem C8_empty_pattern (t sa : List Nat) (hv : Valid t sa) (hn : 1 ≤ t.length) :
    searchPattern t sa [] = (sa.getD ((t.length - 1) / 2) 0 : Int) ∧
      sa.getD ((t.length - 1) / 2) 0 < t.length ∧ searchPattern t sa [] ≠ -1 := by
  have hm : (0 + (t.length - 1)) / 2 = (t.length - 1) / 2 := by omega
  have hres : searchPattern t sa [] = (sa.getD ((t.length - 1) / 2) 0 : Int) := by
    unfold searchPattern
    rw [searchLoop, if_pos (by omega),
      if_pos (show strncmp [] (List.drop (sa.getD ((0 + (t.length - 1)) / 2) 0) t)
        ([] : List Nat).length = 0 by rw [List.length_nil, strncmp_zero_fuel]), hm]
  refine ⟨hres, ?_, ?_⟩
  · apply valid_getD_lt hv
    rw [valid_length hv]
    omega
  · rw [hres]
    intro hcon
    have := Int.natCast_nonneg (sa.getD ((t.length - 1) / 2) 0)
    omega

/-- Witness for C8 on the one-character text `[3]` with suffix array
`[0]`. -/
theorem C8_empty_pattern_witness :
    searchPattern [3] [0] [] = ([0].getD (([3].length - 1) / 2) 0 : Int) ∧
      [0].getD (([3].length - 1) / 2) 0 < [3].length ∧ searchPattern [3] [0] [] ≠ -1 :=
  C8_empty_pattern [3] [0] (valid_of_checks _ _ (by decide) (by decide)) (by decide)

/-- C9: on the empty text the binary-search range `[0, N - 1]` is empty, so
`searchPattern` returns `-1` for every suffix array and every pattern,
including the empty pattern. -/
theorem C9_empty_text (sa pat : List Nat) : searchPattern [] sa pat = -1 := by
  unfold searchPattern
  rw [searchLoop, if_neg (by simp)]
